import Mathlib

/-!
Verification of the bcoin-style wire serialization layer of this
repository: the statically allocated buffer writer
(src/lib/utils/staticwriter.js), the per-network packet magic constants
(network.js), and the framer/parser stream machinery described by the
specification.

Modelling conventions: byte buffers are lists of natural numbers (byte
values), the write cursor is an integer (the JavaScript cursor is a plain
number and seek may drive it negative or past the capacity), and a byte
store into the underlying typed array is an update that is silently
ignored when the position is out of bounds, matching Uint8Array element
assignment semantics. Fallible operations (assertions in the source)
return Option or Except values.
-/

namespace Bitloyal

/-- Store one byte at an integer position of a buffer. The value is reduced
modulo 256 and the store is silently ignored when the position lies outside
the buffer, matching JavaScript Uint8Array element assignment. -/
def store1 (data : List Nat) (pos : Int) (b : Nat) : List Nat :=
  if 0 ≤ pos ∧ pos < (data.length : Int) then data.set pos.toNat (b % 256) else data

/-- Store a list of bytes at consecutive integer positions. -/
def storeBytes (data : List Nat) (pos : Int) : List Nat → List Nat
  | [] => data
  | b :: bs => storeBytes (store1 data pos b) (pos + 1) bs

/-- Little-endian byte decomposition of a natural number into a fixed
number of bytes (low byte first). -/
def leBytes : Nat → Nat → List Nat
  | 0, _ => []
  | w + 1, v => v % 256 :: leBytes w (v / 256)

/-- Big-endian byte decomposition: the little-endian bytes reversed. -/
def beBytes (w v : Nat) : List Nat := (leBytes w v).reverse

/-- Recombine a list of bytes little-endian into a natural number. -/
def unLE : List Nat → Nat
  | [] => 0
  | b :: bs => b + 256 * unLE bs

theorem length_store1 (data : List Nat) (pos : Int) (b : Nat) :
    (store1 data pos b).length = data.length := by
  unfold store1
  split
  · exact List.length_set ..
  · rfl

theorem length_storeBytes (bs : List Nat) :
    ∀ (data : List Nat) (pos : Int), (storeBytes data pos bs).length = data.length := by
  induction bs with
  | nil => intro data pos; rfl
  | cons b bs ih =>
      intro data pos
      show (storeBytes (store1 data pos b) (pos + 1) bs).length = data.length
      rw [ih, length_store1]

theorem length_leBytes (w : Nat) : ∀ v : Nat, (leBytes w v).length = w := by
  induction w with
  | zero => intro v; rfl
  | succ w ih => intro v; show (v % 256 :: leBytes w (v / 256)).length = w + 1; simp [ih]

theorem length_beBytes (w v : Nat) : (beBytes w v).length = w := by
  simp [beBytes, length_leBytes]

theorem leBytes_lt (w : Nat) : ∀ v : Nat, ∀ b ∈ leBytes w v, b < 256 := by
  induction w with
  | zero => intro v b hb; simp [leBytes] at hb
  | succ w ih =>
      intro v b hb
      simp only [leBytes, List.mem_cons] at hb
      rcases hb with h | h
      · omega
      · exact ih _ _ h

theorem unLE_leBytes (w : Nat) : ∀ v : Nat, v < 256 ^ w → unLE (leBytes w v) = v := by
  induction w with
  | zero => intro v hv; interval_cases v; rfl
  | succ w ih =>
      intro v hv
      show v % 256 + 256 * unLE (leBytes w (v / 256)) = v
      rw [ih (v / 256) (by rw [pow_succ] at hv; omega)]
      omega

/-- The master store lemma: storing a byte list that fits inside the buffer
replaces exactly the corresponding segment (each byte reduced mod 256) and
leaves everything before and after untouched. -/
theorem storeBytes_spec (bs : List Nat) :
    ∀ (data : List Nat) (p : Nat), p + bs.length ≤ data.length →
    storeBytes data (p : Int) bs =
      data.take p ++ bs.map (fun b => b % 256) ++ data.drop (p + bs.length) := by
  induction bs with
  | nil =>
      intro data p h
      show data = data.take p ++ [] ++ data.drop (p + 0)
      simp [List.take_append_drop]
  | cons b bs ih =>
      intro data p h
      have hp : p < data.length := by
        simp only [List.length_cons] at h; omega
      have hstore : store1 data (p : Int) b = data.set p (b % 256) := by
        unfold store1
        rw [if_pos ⟨by positivity, by exact_mod_cast hp⟩]
        simp
      show storeBytes (store1 data (p : Int) b) ((p : Int) + 1) bs = _
      have hcast : ((p : Int) + 1) = ((p + 1 : Nat) : Int) := by push_cast; ring
      rw [hstore, hcast, ih (data.set p (b % 256)) (p + 1)
        (by rw [List.length_set]; simp only [List.length_cons] at h; omega)]
      rw [List.set_eq_take_cons_drop _ hp]
      have hl1 : (data.take p).length = p := by
        rw [List.length_take]; omega
      have htake : (data.take p ++ b % 256 :: data.drop (p + 1)).take (p + 1)
          = data.take p ++ [b % 256] := by
        conv_lhs => rw [show p + 1 = (data.take p).length + 1 by rw [hl1]]
        rw [List.take_append]
        rfl
      have hdrop : (data.take p ++ b % 256 :: data.drop (p + 1)).drop (p + 1 + bs.length)
          = data.drop (p + (bs.length + 1)) := by
        conv_lhs => rw [show p + 1 + bs.length = (data.take p).length + (bs.length + 1) by
          rw [hl1]; ring]
        rw [List.drop_append, List.drop_succ_cons, List.drop_drop]
        congr 1
        ring
      rw [htake, hdrop]
      simp [List.append_assoc]

/-- Variant of the master store lemma for byte lists whose entries are
already bytes: the segment is replaced verbatim. -/
theorem storeBytes_bytes (bs : List Nat) (data : List Nat) (p : Nat)
    (hfit : p + bs.length ≤ data.length) (hbyte : ∀ b ∈ bs, b < 256) :
    storeBytes data (p : Int) bs =
      data.take p ++ bs ++ data.drop (p + bs.length) := by
  rw [storeBytes_spec bs data p hfit]
  have hmap : bs.map (fun b => b % 256) = bs.map id :=
    List.map_congr_left fun b hb => Nat.mod_eq_of_lt (hbyte b hb)
  rw [hmap, List.map_id]

/-- Statically allocated buffer writer (StaticWriter in the source): an
owned fixed-size byte buffer plus the count of bytes written so far, the
write cursor. The constructor allocates an uninitialized buffer of the
requested size with cursor zero, so a fresh writer is any state whose data
has the requested length and whose cursor is zero. -/
structure StaticWriter where
  data : List Nat
  written : Int
deriving DecidableEq

namespace StaticWriter

/-- Render the final buffer. The source asserts that the cursor equals the
buffer length, destroys the writer state unless the keep flag is set, and
returns the buffer. Failure of the assertion is the none result; the second
component is the writer state left behind, none when destroyed. -/
def render (keep : Bool) (w : StaticWriter) : Option (List Nat × Option StaticWriter) :=
  if w.written = (w.data.length : Int) then
    some (w.data, if keep then some w else none)
  else
    none

/-- Get the number of bytes written so far. -/
def getSize (w : StaticWriter) : Int :=
  w.written

/-- Seek to a relative offset: the source unconditionally adds the offset
to the cursor and touches nothing else. -/
def seek (offset : Int) (w : StaticWriter) : StaticWriter :=
  { w with written := w.written + offset }

/-- Write an unsigned 8-bit value at the cursor. -/
def writeU8 (value : Nat) (w : StaticWriter) : StaticWriter :=
  { data := store1 w.data w.written value, written := w.written + 1 }

/-- Write an unsigned 16-bit value little-endian at the cursor. -/
def writeU16 (value : Nat) (w : StaticWriter) : StaticWriter :=
  { data := storeBytes w.data w.written (leBytes 2 value), written := w.written + 2 }

/-- Write an unsigned 16-bit value big-endian at the cursor. -/
def writeU16BE (value : Nat) (w : StaticWriter) : StaticWriter :=
  { data := storeBytes w.data w.written (beBytes 2 value), written := w.written + 2 }

/-- Write an unsigned 32-bit value little-endian at the cursor. -/
def writeU32 (value : Nat) (w : StaticWriter) : StaticWriter :=
  { data := storeBytes w.data w.written (leBytes 4 value), written := w.written + 4 }

/-- Write an unsigned 32-bit value big-endian at the cursor. -/
def writeU32BE (value : Nat) (w : StaticWriter) : StaticWriter :=
  { data := storeBytes w.data w.written (beBytes 4 value), written := w.written + 4 }

/-- Write a signed 8-bit value: stored as its two-complement byte, the
value taken modulo 256 as in the Node buffer primitive. -/
def writeI8 (value : Int) (w : StaticWriter) : StaticWriter :=
  { data := store1 w.data w.written (value % 256).toNat, written := w.written + 1 }

/-- Write a signed 16-bit value little-endian (two-complement). -/
def writeI16 (value : Int) (w : StaticWriter) : StaticWriter :=
  { data := storeBytes w.data w.written (leBytes 2 (value % 65536).toNat),
    written := w.written + 2 }

/-- Write a signed 16-bit value big-endian (two-complement). -/
def writeI16BE (value : Int) (w : StaticWriter) : StaticWriter :=
  { data := storeBytes w.data w.written (beBytes 2 (value % 65536).toNat),
    written := w.written + 2 }

/-- Write a signed 32-bit value little-endian (two-complement). -/
def writeI32 (value : Int) (w : StaticWriter) : StaticWriter :=
  { data := storeBytes w.data w.written (leBytes 4 (value % 4294967296).toNat),
    written := w.written + 4 }

/-- Write a signed 32-bit value big-endian (two-complement). -/
def writeI32BE (value : Int) (w : StaticWriter) : StaticWriter :=
  { data := storeBytes w.data w.written (beBytes 4 (value % 4294967296).toNat),
    written := w.written + 4 }

/-- Write raw bytes at the cursor: the source returns immediately on an
empty buffer and otherwise copies the bytes and advances the cursor by
their count. -/
def writeBytes (value : List Nat) (w : StaticWriter) : StaticWriter :=
  if value.length = 0 then w
  else
    { data := storeBytes w.data w.written value,
      written := w.written + (value.length : Int) }

end StaticWriter

/-- Modelled from the spec: the varint helper of the encoding module
(src/lib/utils/encoding.js is not among the given sources; only its callers
in staticwriter.js are). Values below 0xfd are stored as a single byte;
values up to 0xffff as marker byte 0xfd plus the value as two little-endian
bytes; values up to 0xffffffff as marker 0xfe plus four little-endian
bytes; larger values as marker 0xff plus eight little-endian bytes. The
bytes are stored into the buffer at the given offset and the advanced
offset is returned, as the source mutates the buffer and returns the new
offset. -/
def encWriteVarint (data : List Nat) (num : Nat) (off : Int) : List Nat × Int :=
  if num < 0xfd then (store1 data off num, off + 1)
  else if num ≤ 0xffff then (storeBytes data off (0xfd :: leBytes 2 num), off + 3)
  else if num ≤ 0xffffffff then (storeBytes data off (0xfe :: leBytes 4 num), off + 5)
  else (storeBytes data off (0xff :: leBytes 8 num), off + 9)

/-- The byte string of the compact varint encoding of a number, stated
independently of any buffer: the marker-byte forms of the specification. -/
def varintBytes (num : Nat) : List Nat :=
  if num < 0xfd then [num]
  else if num ≤ 0xffff then 0xfd :: leBytes 2 num
  else if num ≤ 0xffffffff then 0xfe :: leBytes 4 num
  else 0xff :: leBytes 8 num

/-- Decode a compact varint from the front of a byte list, returning the
value and the unconsumed tail. -/
def readVarint : List Nat → Option (Nat × List Nat)
  | [] => none
  | b :: rest =>
    if b < 0xfd then some (b, rest)
    else if b = 0xfd then
      if 2 ≤ rest.length then some (unLE (rest.take 2), rest.drop 2) else none
    else if b = 0xfe then
      if 4 ≤ rest.length then some (unLE (rest.take 4), rest.drop 4) else none
    else
      if 8 ≤ rest.length then some (unLE (rest.take 8), rest.drop 8) else none

namespace StaticWriter

/-- Write a compact varint at the cursor: delegates to the encoding helper
exactly as the source does, storing the returned offset as the cursor. -/
def writeVarint (value : Nat) (w : StaticWriter) : StaticWriter :=
  { data := (encWriteVarint w.data value w.written).1,
    written := (encWriteVarint w.data value w.written).2 }

/-- Write bytes with a compact varint length before them. -/
def writeVarBytes (value : List Nat) (w : StaticWriter) : StaticWriter :=
  writeBytes value (writeVarint value.length w)

end StaticWriter

/-- A hash argument of writeHash: either a binary buffer of bytes or a
textual hexadecimal string, modelled as the list of its hexadecimal digit
values (each below 16). -/
inductive HashValue where
  | buf (bytes : List Nat)
  | str (digits : List Nat)
deriving DecidableEq

/-- Decode a list of hexadecimal digit values pairwise into bytes, most
significant digit of each byte first, exactly as a hex string is decoded
into a buffer: digit pair i becomes byte i, in order. -/
def hexPairs : List Nat → List Nat
  | hi :: lo :: rest => (hi * 16 + lo) :: hexPairs rest
  | _ => []

namespace StaticWriter

/-- Write a 32 byte hash. A binary argument must be exactly 32 bytes and
is copied as-is via writeBytes; a string argument must be exactly 64 hex
digits and is hex-decoded into the buffer with the cursor advanced by 32.
A failed length assertion is the none result. -/
def writeHash (value : HashValue) (w : StaticWriter) : Option StaticWriter :=
  match value with
  | .buf bytes =>
      if bytes.length = 32 then some (writeBytes bytes w) else none
  | .str digits =>
      if digits.length = 64 then
        some { data := storeBytes w.data w.written (hexPairs digits),
               written := w.written + 32 }
      else none

end StaticWriter

/-- Slice a buffer from position zero up to an integer end position, with
the JavaScript convention that a negative end counts from the end of the
buffer. -/
def jsSlice (data : List Nat) (e : Int) : List Nat :=
  if 0 ≤ e then data.take e.toNat else data.take ((data.length : Int) + e).toNat

/-- Modelled from the spec: the double-hash digest of the crypto module
(src/lib/crypto/digest.js is not among the given sources). The checksum
algorithm is a cryptographic double-hash, a hash of a hash, over the exact
payload bytes; the underlying hash is kept abstract as a parameter. -/
def hash256 (H : List Nat → List Nat) (data : List Nat) : List Nat :=
  H (H data)

namespace StaticWriter

/-- Calculate and write a checksum for the data written so far: the source
slices the buffer from zero to the cursor, double-hashes it, copies the
first four digest bytes at the cursor and advances the cursor by four. -/
def writeChecksum (H : List Nat → List Nat) (w : StaticWriter) : StaticWriter :=
  { data := storeBytes w.data w.written ((hash256 H (jsSlice w.data w.written)).take 4),
    written := w.written + 4 }

/-- Write an unsigned 64-bit big-number value: the source body is a bare
failing assertion with the message given here. -/
def writeU64BN (_value : Int) (_w : StaticWriter) : Except String StaticWriter :=
  .error "Not implemented."

/-- Write an unsigned 64-bit big-endian big-number value: unconditionally
a failing assertion in the source. -/
def writeU64BEBN (_value : Int) (_w : StaticWriter) : Except String StaticWriter :=
  .error "Not implemented."

/-- Write a signed 64-bit big-number value: unconditionally a failing
assertion in the source. -/
def writeI64BN (_value : Int) (_w : StaticWriter) : Except String StaticWriter :=
  .error "Not implemented."

/-- Write a signed 64-bit big-endian big-number value: unconditionally a
failing assertion in the source. -/
def writeI64BEBN (_value : Int) (_w : StaticWriter) : Except String StaticWriter :=
  .error "Not implemented."

/-- Write a big-number varint: unconditionally a failing assertion in the
source. -/
def writeVarintBN (_value : Int) (_w : StaticWriter) : Except String StaticWriter :=
  .error "Not implemented."

/-- Write a big-number varint of the second form: unconditionally a
failing assertion in the source. -/
def writeVarint2BN (_value : Int) (_w : StaticWriter) : Except String StaticWriter :=
  .error "Not implemented."

end StaticWriter

/-- Packet magic number of the main network (network.js). -/
def main.magic : Nat := 0xecd8e1c4

/-- Packet magic number of the test network (network.js). -/
def testnet.magic : Nat := 0x69fc86db

/-- Packet magic number of the regression test network (network.js). -/
def regtest.magic : Nat := 0xdab5bffa

/-- Packet magic number of the simulation network (network.js). -/
def simnet.magic : Nat := 0x12141c16

/-- The magic numbers of the four configured networks in their
declaration order. -/
def networkMagics : List Nat :=
  [main.magic, testnet.magic, regtest.magic, simnet.magic]

/-- One emitted packet at the framing level: the command bytes with the
NUL padding stripped, and the raw payload bytes handed to the registry
decoder. -/
structure RawPacket where
  cmd : List Nat
  payload : List Nat
deriving DecidableEq

/-- Modelled from the spec: the Framer (src/lib/net/framer.js is not among
the given sources; only its test is). Given a command that must fit the
12-byte field (fatal when longer, the none result) and an already
serialized payload, it allocates a buffer of exactly 24 plus the payload
length and writes the network magic as a 32-bit little-endian value, the
command NUL-padded to 12 bytes, the payload length as a 32-bit
little-endian value, the first four bytes of the double-hash of the
payload, and the payload verbatim. -/
def frame (magic : Nat) (H : List Nat → List Nat) (cmd payload : List Nat) :
    Option (List Nat) :=
  if cmd.length ≤ 12 then
    some (leBytes 4 magic ++ (cmd ++ List.replicate (12 - cmd.length) 0)
      ++ leBytes 4 payload.length ++ (hash256 H payload).take 4 ++ payload)
  else none

/-- The four header fields of a 24-byte message header, as sliced from the
front of a buffered byte stream. -/
structure Header where
  magic : Nat
  cmd12 : List Nat
  len : Nat
  ck : List Nat
deriving DecidableEq

/-- Parse the 24-byte header at the front of a buffer: magic at offset 0
as 32-bit little-endian, 12 command bytes at offset 4, payload length at
offset 16 as 32-bit little-endian, 4 checksum bytes at offset 20. -/
def parseHeader (buf : List Nat) : Header :=
  { magic := unLE (buf.take 4)
    cmd12 := (buf.drop 4).take 12
    len := unLE ((buf.drop 16).take 4)
    ck := (buf.drop 20).take 4 }

/-- Recover the command from its NUL-padded 12-byte field: the bytes up to
the first NUL. -/
def cmdOfBytes (cmd12 : List Nat) : List Nat :=
  cmd12.takeWhile (fun b => b != 0)

/-- The fatal framing errors of the parser: magic mismatch, oversized
declared length, and checksum mismatch. -/
inductive ParseError where
  | badMagic
  | oversize
  | badChecksum
deriving DecidableEq

/-- Prefix a completed packet onto the outcome of parsing the remaining
bytes, propagating a framing error unchanged. -/
def consFrame (pkt : RawPacket) (x : Except ParseError (List RawPacket × List Nat)) :
    Except ParseError (List RawPacket × List Nat) :=
  match x with
  | .error e => .error e
  | .ok (ps, rest) => .ok (pkt :: ps, rest)

/-- Prefix a list of already-emitted packets onto a parsing outcome,
propagating a framing error unchanged. -/
def prependFrames (ps : List RawPacket)
    (x : Except ParseError (List RawPacket × List Nat)) :
    Except ParseError (List RawPacket × List Nat) :=
  match x with
  | .error e => .error e
  | .ok (qs, r) => .ok (ps ++ qs, r)

/-- Modelled from the spec: the parser frame loop (src/lib/net/parser.js
is not among the given sources; only its test is). With fewer than 24
bytes buffered it waits; otherwise it parses the header, fails the
connection on a magic mismatch or a declared length above the configured
maximum, waits until the full payload is buffered, fails on a checksum
mismatch, and otherwise emits the completed packet and continues on the
remaining bytes. Returns the packets emitted in order and the unconsumed
trailing bytes. -/
def parseFrames (magic maxSize : Nat) (H : List Nat → List Nat) (buf : List Nat) :
    Except ParseError (List RawPacket × List Nat) :=
  if _h24 : buf.length < 24 then .ok ([], buf)
  else if (parseHeader buf).magic ≠ magic then .error .badMagic
  else if maxSize < (parseHeader buf).len then .error .oversize
  else if _hlen : buf.length < 24 + (parseHeader buf).len then .ok ([], buf)
  else if (parseHeader buf).ck
      ≠ (hash256 H ((buf.drop 24).take (parseHeader buf).len)).take 4 then
    .error .badChecksum
  else
    consFrame
      ⟨cmdOfBytes (parseHeader buf).cmd12, (buf.drop 24).take (parseHeader buf).len⟩
      (parseFrames magic maxSize H (buf.drop (24 + (parseHeader buf).len)))
termination_by buf.length
decreasing_by
  simp only [List.length_drop]
  omega

/-- Modelled from the spec: the stream parser state, one instance per
connection: the configured network magic and maximum message size, plus
the internal accumulation buffer of bytes not yet resolved into a
complete frame. -/
structure Parser where
  magic : Nat
  maxSize : Nat
  pending : List Nat
deriving DecidableEq

/-- Repackage a frame-loop outcome as a feed outcome: the emitted packets
together with the parser retaining the unconsumed tail. -/
def feedResult (p : Parser) (x : Except ParseError (List RawPacket × List Nat)) :
    Except ParseError (List RawPacket × Parser) :=
  match x with
  | .error e => .error e
  | .ok (ps, rest) => .ok (ps, { p with pending := rest })

/-- Modelled from the spec: feeding one chunk to the parser appends it to
the accumulation buffer, extracts every complete frame, and either fails
the connection with a framing error or returns the packets emitted by
this call together with the parser holding the unconsumed tail. -/
def Parser.feed (H : List Nat → List Nat) (p : Parser) (chunk : List Nat) :
    Except ParseError (List RawPacket × Parser) :=
  feedResult p (parseFrames p.magic p.maxSize H (p.pending ++ chunk))

/-- Feed a list of chunks one at a time, collecting the packets emitted
across the calls in arrival order. -/
def Parser.feedAll (H : List Nat → List Nat) (p : Parser) :
    List (List Nat) → Except ParseError (List RawPacket × Parser)
  | [] => .ok ([], p)
  | c :: cs =>
    match Parser.feed H p c with
    | .error e => .error e
    | .ok (ps, p1) =>
      match Parser.feedAll H p1 cs with
      | .error e => .error e
      | .ok (qs, p2) => .ok (ps ++ qs, p2)

/-- Modelled from the spec: a network address record as embedded in the
version message: service bits, the 16-byte address, and a big-endian
port (src/lib/primitives/netaddress.js is not among the given sources). -/
structure NetAddress where
  services : Nat
  host : List Nat
  port : Nat
deriving DecidableEq

/-- Modelled from the spec: the version packet fields: protocol version
number, service bits, timestamp, remote and local network address, nonce
bytes, user-agent string bytes, best height, and the no-relay flag
(src/lib/net/packets.js is not among the given sources; only its test
is). -/
structure VersionPacket where
  version : Nat
  services : Nat
  time : Nat
  remote : NetAddress
  localAddr : NetAddress
  nonce : List Nat
  agent : List Nat
  height : Nat
  noRelay : Bool
deriving DecidableEq

/-- Modelled from the spec: the version-message form of an address record:
service bits as eight little-endian bytes, the 16 address bytes, and the
port as two big-endian bytes. -/
def encodeAddr (a : NetAddress) : List Nat :=
  leBytes 8 a.services ++ a.host ++ beBytes 2 a.port

/-- Decode a version-message address record from the front of a byte
list, returning the record and the unconsumed tail. -/
def decodeAddr (l : List Nat) : Option (NetAddress × List Nat) :=
  if 26 ≤ l.length then
    some ({ services := unLE (l.take 8)
            host := (l.drop 8).take 16
            port := unLE (((l.drop 24).take 2).reverse) }, l.drop 26)
  else none

/-- Modelled from the spec: the version packet encoder, writing the fields
the protocol defines for the version command in the documented order:
version, services, timestamp, remote address, local address, nonce,
varint-length-prefixed agent string, height, and the relay byte (zero
exactly when no-relay is set). -/
def encodeVersion (v : VersionPacket) : List Nat :=
  leBytes 4 v.version ++ leBytes 8 v.services ++ leBytes 8 v.time
    ++ encodeAddr v.remote ++ encodeAddr v.localAddr ++ v.nonce
    ++ varintBytes v.agent.length ++ v.agent ++ leBytes 4 v.height
    ++ [if v.noRelay then 0 else 1]

/-- Modelled from the spec: the version packet decoder, the inverse of the
encoder, failing on a truncated input. -/
def decodeVersion (l : List Nat) : Option VersionPacket :=
  if 20 ≤ l.length then
    match decodeAddr (l.drop 20) with
    | none => none
    | some (remote, r1) =>
      match decodeAddr r1 with
      | none => none
      | some (laddr, r2) =>
        if 8 ≤ r2.length then
          match readVarint (r2.drop 8) with
          | none => none
          | some (alen, r3) =>
            if alen ≤ r3.length then
              let r4 := r3.drop alen
              if 5 ≤ r4.length then
                some { version := unLE (l.take 4)
                       services := unLE ((l.drop 4).take 8)
                       time := unLE ((l.drop 12).take 8)
                       remote := remote
                       localAddr := laddr
                       nonce := r2.take 8
                       agent := r3.take alen
                       height := unLE (r4.take 4)
                       noRelay := r4.getD 4 0 == 0 }
              else none
            else none
        else none
  else none

/-!
Sample values used by the concrete scenarios: a stand-in for the
underlying hash primitive (any function producing at least four byte
values works for the structural claims) and the concrete version packet
of the protocol test. -/

/-- A concrete stand-in for the underlying hash function: 32 bytes, each
the byte sum of the input modulo 256. Only its output length and byte
range matter to the framing claims. -/
def sampleHash (l : List Nat) : List Nat :=
  List.replicate 32 ((l.foldr (fun a b => a + b) 0 + l.length) % 256)

/-- The ASCII bytes of the command string version. -/
def versionCmd : List Nat := [118, 101, 114, 115, 105, 111, 110]

/-- The concrete version packet of the protocol test scenario:
version 300, services 1, height 0, noRelay false, agent /test:0.0/ in
ASCII bytes, a fixed nonce and timestamp, and all-zero addresses. -/
def sampleVersion : VersionPacket :=
  { version := 300
    services := 1
    time := 1700000000
    remote := { services := 0, host := List.replicate 16 0, port := 0 }
    localAddr := { services := 0, host := List.replicate 16 0, port := 0 }
    nonce := [1, 2, 3, 4, 5, 6, 7, 8]
    agent := [47, 116, 101, 115, 116, 58, 48, 46, 48, 47]
    height := 0
    noRelay := false }

/-- The framed bytes of the sample version packet on the main network. -/
def sampleFrame : List Nat :=
  (frame main.magic sampleHash versionCmd (encodeVersion sampleVersion)).getD []

/-- A small frame whose 3-byte payload exceeds a configured maximum
message size of 2: used to exhibit the parser oversize rejection. -/
def cexFrame : List Nat :=
  (frame 1 sampleHash [97] [5, 5, 5]).getD []

/-- A small frame on a toy network used by the round-trip witness. -/
def witFrame : List Nat :=
  (frame 7 sampleHash [97] [1, 2, 3]).getD []

/-- A signed reading of an unsigned w-bit value: the two-complement
inverse used to state what the signed writers store. -/
def toSigned (bits : Nat) (u : Nat) : Int :=
  if (u : Int) < 2 ^ (bits - 1) then (u : Int) else (u : Int) - 2 ^ bits

/-!
Theorems. Each claim of the specification is settled by one theorem
below, with witnesses instantiating the hypothesised statements at
concrete inputs. -/

/-- C9: the packet magic constants of the four configured networks are
pairwise distinct 32-bit values, so a well-formed frame magic field
identifies at most one configured network. -/
theorem network_magics_distinct :
    List.Pairwise (fun a b => a ≠ b) networkMagics ∧
    (∀ m ∈ networkMagics, m < 2 ^ 32) ∧
    (∀ i j : Fin 4, networkMagics.get i = networkMagics.get j → i = j) := by
  decide

/-- C8: every big-number write variant fails unconditionally with the
fatal Not implemented assertion, for every input value and every writer
state, so no state is ever produced and no cursor ever advances. -/
theorem bn_writes_not_implemented (value : Int) (w : StaticWriter) :
    StaticWriter.writeU64BN value w = .error "Not implemented." ∧
    StaticWriter.writeU64BEBN value w = .error "Not implemented." ∧
    StaticWriter.writeI64BN value w = .error "Not implemented." ∧
    StaticWriter.writeI64BEBN value w = .error "Not implemented." ∧
    StaticWriter.writeVarintBN value w = .error "Not implemented." ∧
    StaticWriter.writeVarint2BN value w = .error "Not implemented." :=
  ⟨rfl, rfl, rfl, rfl, rfl, rfl⟩

/-- C3: render succeeds and returns the buffer exactly when the cursor
equals the capacity; any mismatch, below or above, is a fatal assertion
failure; on success the state is destroyed unless the keep flag is set,
in which case it is left intact. -/
theorem render_exact_fill (w : StaticWriter) :
    (w.written = (w.data.length : Int) →
      StaticWriter.render false w = some (w.data, none) ∧
      StaticWriter.render true w = some (w.data, some w)) ∧
    (w.written ≠ (w.data.length : Int) →
      ∀ keep, StaticWriter.render keep w = none) := by
  constructor
  · intro h
    constructor <;> simp [StaticWriter.render, h]
  · intro h keep
    unfold StaticWriter.render
    rw [if_neg h]

/-- C3 witness: a two-byte writer with cursor two renders and is
destroyed (or kept), while cursor one fails the assertion. -/
theorem render_exact_fill_witness :
    (StaticWriter.render false ⟨[5, 6], 2⟩ = some ([5, 6], none) ∧
      StaticWriter.render true ⟨[5, 6], 2⟩ = some ([5, 6], some ⟨[5, 6], 2⟩)) ∧
    StaticWriter.render false ⟨[5, 6], 1⟩ = none :=
  ⟨(render_exact_fill ⟨[5, 6], 2⟩).1 (by decide),
   (render_exact_fill ⟨[5, 6], 1⟩).2 (by decide) false⟩

/-- C10: seek adds the delta to the cursor unconditionally, for any
integer delta including negative ones and ones moving past the capacity,
writes no bytes, and never fails by itself; the resulting mismatch is
detected exactly by the fatal capacity check in render. -/
theorem seek_unchecked (delta : Int) (w : StaticWriter) :
    (StaticWriter.seek delta w).written = w.written + delta ∧
    (StaticWriter.seek delta w).data = w.data ∧
    (∀ keep, StaticWriter.render keep (StaticWriter.seek delta w) = none ↔
      w.written + delta ≠ (w.data.length : Int)) := by
  refine ⟨rfl, rfl, fun keep => ?_⟩
  by_cases h : w.written + delta = (w.data.length : Int) <;>
    simp [StaticWriter.render, StaticWriter.seek, h]

theorem hexPairs_length : ∀ ds : List Nat, (hexPairs ds).length = ds.length / 2
  | [] => by simp [hexPairs]
  | [_] => by simp [hexPairs]
  | hi :: lo :: rest => by
      simp only [hexPairs, List.length_cons, hexPairs_length rest]
      omega

theorem hexPairs_lt : ∀ ds : List Nat, (∀ d ∈ ds, d < 16) →
    ∀ b ∈ hexPairs ds, b < 256
  | [], _ => by intro b hb; simp [hexPairs] at hb
  | [_], _ => by intro b hb; simp [hexPairs] at hb
  | hi :: lo :: rest, h => by
      intro b hb
      simp only [hexPairs, List.mem_cons] at hb
      rcases hb with rfl | hb
      · have h1 : hi < 16 := h hi (by simp)
        have h2 : lo < 16 := h lo (by simp)
        omega
      · exact hexPairs_lt rest (fun d hd => h d (by simp [hd])) b hb

/-- C2 (amended): writeHash writes exactly 32 bytes and advances the
cursor by 32: a 32-byte binary value is copied as-is, and a
64-hex-digit string is decoded pairwise in order into the 32 written
bytes, digit pair i becoming byte i with no byte-order reversal (the
textual form bcoin passes here is already in wire byte order); any other
binary or string length fails fatally via assertion. -/
theorem writeHash_spec (w : StaticWriter) (p : Nat)
    (hw : w.written = (p : Int)) (hfit : p + 32 ≤ w.data.length) :
    (∀ bytes : List Nat, bytes.length = 32 → (∀ b ∈ bytes, b < 256) →
      StaticWriter.writeHash (.buf bytes) w =
        some ⟨w.data.take p ++ bytes ++ w.data.drop (p + 32), (p : Int) + 32⟩) ∧
    (∀ bytes : List Nat, bytes.length ≠ 32 →
      StaticWriter.writeHash (.buf bytes) w = none) ∧
    (∀ digits : List Nat, digits.length = 64 → (∀ d ∈ digits, d < 16) →
      StaticWriter.writeHash (.str digits) w =
        some ⟨w.data.take p ++ hexPairs digits ++ w.data.drop (p + 32), (p : Int) + 32⟩) ∧
    (∀ digits : List Nat, digits.length ≠ 64 →
      StaticWriter.writeHash (.str digits) w = none) := by
  refine ⟨?_, ?_, ?_, ?_⟩
  · intro bytes hlen hb
    have hdata : storeBytes w.data ((p : Nat) : Int) bytes =
        w.data.take p ++ bytes ++ w.data.drop (p + 32) := by
      rw [storeBytes_bytes bytes w.data p (by rw [hlen]; exact hfit) hb, hlen]
    simp only [StaticWriter.writeHash, StaticWriter.writeBytes, if_pos hlen,
      if_neg (by omega : ¬ bytes.length = 0), hw, hdata, hlen]
    norm_num
  · intro bytes hlen
    simp [StaticWriter.writeHash, hlen]
  · intro digits hlen hd
    have hplen : (hexPairs digits).length = 32 := by
      rw [hexPairs_length, hlen]
    have hdata : storeBytes w.data ((p : Nat) : Int) (hexPairs digits) =
        w.data.take p ++ hexPairs digits ++ w.data.drop (p + 32) := by
      rw [storeBytes_bytes (hexPairs digits) w.data p (by rw [hplen]; exact hfit)
        (hexPairs_lt digits hd), hplen]
    simp only [StaticWriter.writeHash, if_pos hlen, hw, hdata]
  · intro digits hlen
    simp [StaticWriter.writeHash, hlen]

/-- C2 witness: a fresh 32-byte writer accepts a 32-byte binary hash
verbatim, filling the buffer and advancing the cursor to 32. -/
theorem writeHash_spec_witness :
    StaticWriter.writeHash (.buf (List.replicate 32 5)) ⟨List.replicate 32 0, 0⟩ =
      some ⟨(List.replicate 32 0).take 0 ++ List.replicate 32 5
        ++ (List.replicate 32 0).drop (0 + 32), ((0 : Nat) : Int) + 32⟩ :=
  (writeHash_spec ⟨List.replicate 32 0, 0⟩ 0 (by decide) (by decide)).1
    (List.replicate 32 5) (by decide) (by decide)

theorem store1_as_storeBytes (data : List Nat) (off : Int) (b : Nat) :
    store1 data off b = storeBytes data off [b] :=
  rfl

theorem toSigned_emod_8 (v : Int) (hlo : -(2 ^ 7) ≤ v) (hhi : v < 2 ^ 7) :
    toSigned 8 ((v % 256).toNat) = v := by
  have h0 : (0 : Int) ≤ v % 256 := Int.emod_nonneg _ (by norm_num)
  have hc : (((v % 256).toNat : Int)) = v % 256 := Int.toNat_of_nonneg h0
  unfold toSigned
  norm_num at hlo hhi ⊢
  split <;> omega

theorem toSigned_emod_16 (v : Int) (hlo : -(2 ^ 15) ≤ v) (hhi : v < 2 ^ 15) :
    toSigned 16 ((v % 65536).toNat) = v := by
  have h0 : (0 : Int) ≤ v % 65536 := Int.emod_nonneg _ (by norm_num)
  have hc : (((v % 65536).toNat : Int)) = v % 65536 := Int.toNat_of_nonneg h0
  unfold toSigned
  norm_num at hlo hhi ⊢
  split <;> omega

theorem toSigned_emod_32 (v : Int) (hlo : -(2 ^ 31) ≤ v) (hhi : v < 2 ^ 31) :
    toSigned 32 ((v % 4294967296).toNat) = v := by
  have h0 : (0 : Int) ≤ v % 4294967296 := Int.emod_nonneg _ (by norm_num)
  have hc : (((v % 4294967296).toNat : Int)) = v % 4294967296 :=
    Int.toNat_of_nonneg h0
  unfold toSigned
  norm_num at hlo hhi ⊢
  split <;> omega

/-- C6: every fixed-width integer write stores its value in the stated
endianness at the cursor, advances the cursor by exactly the byte width,
and leaves all previously written bytes (and the rest of the buffer)
unchanged; the stored bytes decode back to the written value, reading
little-endian or big-endian respectively, with the signed variants
storing the two-complement form. -/
theorem fixed_width_writes (w : StaticWriter) (p : Nat) (hw : w.written = (p : Int)) :
    (∀ v : Nat, v < 2 ^ 8 → p + 1 ≤ w.data.length →
      (StaticWriter.writeU8 v w).data =
        w.data.take p ++ [v] ++ w.data.drop (p + 1) ∧
      (StaticWriter.writeU8 v w).written = (p : Int) + 1) ∧
    (∀ v : Nat, v < 2 ^ 16 → p + 2 ≤ w.data.length →
      (StaticWriter.writeU16 v w).data =
        w.data.take p ++ leBytes 2 v ++ w.data.drop (p + 2) ∧
      unLE (leBytes 2 v) = v ∧
      (StaticWriter.writeU16 v w).written = (p : Int) + 2) ∧
    (∀ v : Nat, v < 2 ^ 16 → p + 2 ≤ w.data.length →
      (StaticWriter.writeU16BE v w).data =
        w.data.take p ++ beBytes 2 v ++ w.data.drop (p + 2) ∧
      unLE ((beBytes 2 v).reverse) = v ∧
      (StaticWriter.writeU16BE v w).written = (p : Int) + 2) ∧
    (∀ v : Nat, v < 2 ^ 32 → p + 4 ≤ w.data.length →
      (StaticWriter.writeU32 v w).data =
        w.data.take p ++ leBytes 4 v ++ w.data.drop (p + 4) ∧
      unLE (leBytes 4 v) = v ∧
      (StaticWriter.writeU32 v w).written = (p : Int) + 4) ∧
    (∀ v : Nat, v < 2 ^ 32 → p + 4 ≤ w.data.length →
      (StaticWriter.writeU32BE v w).data =
        w.data.take p ++ beBytes 4 v ++ w.data.drop (p + 4) ∧
      unLE ((beBytes 4 v).reverse) = v ∧
      (StaticWriter.writeU32BE v w).written = (p : Int) + 4) ∧
    (∀ v : Int, -(2 ^ 7) ≤ v → v < 2 ^ 7 → p + 1 ≤ w.data.length →
      (StaticWriter.writeI8 v w).data =
        w.data.take p ++ [(v % 256).toNat] ++ w.data.drop (p + 1) ∧
      toSigned 8 ((v % 256).toNat) = v ∧
      (StaticWriter.writeI8 v w).written = (p : Int) + 1) ∧
    (∀ v : Int, -(2 ^ 15) ≤ v → v < 2 ^ 15 → p + 2 ≤ w.data.length →
      (StaticWriter.writeI16 v w).data =
        w.data.take p ++ leBytes 2 ((v % 65536).toNat) ++ w.data.drop (p + 2) ∧
      toSigned 16 (unLE (leBytes 2 ((v % 65536).toNat))) = v ∧
      (StaticWriter.writeI16 v w).written = (p : Int) + 2) ∧
    (∀ v : Int, -(2 ^ 15) ≤ v → v < 2 ^ 15 → p + 2 ≤ w.data.length →
      (StaticWriter.writeI16BE v w).data =
        w.data.take p ++ beBytes 2 ((v % 65536).toNat) ++ w.data.drop (p + 2) ∧
      toSigned 16 (unLE ((beBytes 2 ((v % 65536).toNat)).reverse)) = v ∧
      (StaticWriter.writeI16BE v w).written = (p : Int) + 2) ∧
    (∀ v : Int, -(2 ^ 31) ≤ v → v < 2 ^ 31 → p + 4 ≤ w.data.length →
      (StaticWriter.writeI32 v w).data =
        w.data.take p ++ leBytes 4 ((v % 4294967296).toNat) ++ w.data.drop (p + 4) ∧
      toSigned 32 (unLE (leBytes 4 ((v % 4294967296).toNat))) = v ∧
      (StaticWriter.writeI32 v w).written = (p : Int) + 4) ∧
    (∀ v : Int, -(2 ^ 31) ≤ v → v < 2 ^ 31 → p + 4 ≤ w.data.length →
      (StaticWriter.writeI32BE v w).data =
        w.data.take p ++ beBytes 4 ((v % 4294967296).toNat) ++ w.data.drop (p + 4) ∧
      toSigned 32 (unLE ((beBytes 4 ((v % 4294967296).toNat)).reverse)) = v ∧
      (StaticWriter.writeI32BE v w).written = (p : Int) + 4) := by
  have hele2 : ∀ u : Nat, (leBytes 2 u).length = 2 := fun u => length_leBytes 2 u
  have hele4 : ∀ u : Nat, (leBytes 4 u).length = 4 := fun u => length_leBytes 4 u
  have hbe2 : ∀ u : Nat, (beBytes 2 u).length = 2 := fun u => length_beBytes 2 u
  have hbe4 : ∀ u : Nat, (beBytes 4 u).length = 4 := fun u => length_beBytes 4 u
  have hbelt : ∀ k u : Nat, ∀ b ∈ beBytes k u, b < 256 := by
    intro k u b hb
    rw [beBytes, List.mem_reverse] at hb
    exact leBytes_lt k u b hb
  have hemod : ∀ (x : Int) (m : Int), 0 < m → (0 : Int) ≤ x % m := by
    intro x m hm
    exact Int.emod_nonneg _ (by omega)
  refine ⟨?_, ?_, ?_, ?_, ?_, ?_, ?_, ?_, ?_, ?_⟩
  · intro v hv hfit
    have hseg := storeBytes_bytes [v] w.data p (by simpa using hfit)
      (by intro b hb; simp only [List.mem_singleton] at hb; omega)
    refine ⟨?_, ?_⟩
    · show store1 w.data w.written v = _
      rw [store1_as_storeBytes, hw, hseg]
      norm_num
    · show w.written + 1 = (p : Int) + 1
      rw [hw]
  · intro v hv hfit
    have hseg := storeBytes_bytes (leBytes 2 v) w.data p
      (by rw [hele2]; exact hfit) (leBytes_lt 2 v)
    rw [hele2] at hseg
    refine ⟨by rw [show (StaticWriter.writeU16 v w).data
        = storeBytes w.data w.written (leBytes 2 v) from rfl, hw, hseg],
      unLE_leBytes 2 v (by norm_num at hv ⊢; omega),
      by show w.written + 2 = (p : Int) + 2; rw [hw]⟩
  · intro v hv hfit
    have hseg := storeBytes_bytes (beBytes 2 v) w.data p
      (by rw [hbe2]; exact hfit) (hbelt 2 v)
    rw [hbe2] at hseg
    refine ⟨by rw [show (StaticWriter.writeU16BE v w).data
        = storeBytes w.data w.written (beBytes 2 v) from rfl, hw, hseg], ?_,
      by show w.written + 2 = (p : Int) + 2; rw [hw]⟩
    rw [beBytes, List.reverse_reverse]
    exact unLE_leBytes 2 v (by norm_num at hv ⊢; omega)
  · intro v hv hfit
    have hseg := storeBytes_bytes (leBytes 4 v) w.data p
      (by rw [hele4]; exact hfit) (leBytes_lt 4 v)
    rw [hele4] at hseg
    refine ⟨by rw [show (StaticWriter.writeU32 v w).data
        = storeBytes w.data w.written (leBytes 4 v) from rfl, hw, hseg],
      unLE_leBytes 4 v (by norm_num at hv ⊢; omega),
      by show w.written + 4 = (p : Int) + 4; rw [hw]⟩
  · intro v hv hfit
    have hseg := storeBytes_bytes (beBytes 4 v) w.data p
      (by rw [hbe4]; exact hfit) (hbelt 4 v)
    rw [hbe4] at hseg
    refine ⟨by rw [show (StaticWriter.writeU32BE v w).data
        = storeBytes w.data w.written (beBytes 4 v) from rfl, hw, hseg], ?_,
      by show w.written + 4 = (p : Int) + 4; rw [hw]⟩
    rw [beBytes, List.reverse_reverse]
    exact unLE_leBytes 4 v (by norm_num at hv ⊢; omega)
  · intro v hlo hhi hfit
    have hb : (v % 256).toNat < 256 := by
      have := hemod v 256 (by norm_num)
      have := Int.emod_lt_of_pos v (show (0 : Int) < 256 by norm_num)
      omega
    have hseg := storeBytes_bytes [(v % 256).toNat] w.data p (by simpa using hfit)
      (by intro b hb2; simp only [List.mem_singleton] at hb2; omega)
    refine ⟨?_, toSigned_emod_8 v hlo hhi, ?_⟩
    · show store1 w.data w.written ((v % 256).toNat) = _
      rw [store1_as_storeBytes, hw, hseg]
      norm_num
    · show w.written + 1 = (p : Int) + 1
      rw [hw]
  · intro v hlo hhi hfit
    have hseg := storeBytes_bytes (leBytes 2 ((v % 65536).toNat)) w.data p
      (by rw [hele2]; exact hfit) (leBytes_lt 2 _)
    rw [hele2] at hseg
    have hu : (v % 65536).toNat < 256 ^ 2 := by
      have := hemod v 65536 (by norm_num)
      have := Int.emod_lt_of_pos v (show (0 : Int) < 65536 by norm_num)
      norm_num
      omega
    refine ⟨by rw [show (StaticWriter.writeI16 v w).data
        = storeBytes w.data w.written (leBytes 2 ((v % 65536).toNat)) from rfl, hw, hseg],
      by rw [unLE_leBytes 2 _ hu]; exact toSigned_emod_16 v hlo hhi,
      by show w.written + 2 = (p : Int) + 2; rw [hw]⟩
  · intro v hlo hhi hfit
    have hseg := storeBytes_bytes (beBytes 2 ((v % 65536).toNat)) w.data p
      (by rw [hbe2]; exact hfit) (hbelt 2 _)
    rw [hbe2] at hseg
    have hu : (v % 65536).toNat < 256 ^ 2 := by
      have := hemod v 65536 (by norm_num)
      have := Int.emod_lt_of_pos v (show (0 : Int) < 65536 by norm_num)
      norm_num
      omega
    refine ⟨by rw [show (StaticWriter.writeI16BE v w).data
        = storeBytes w.data w.written (beBytes 2 ((v % 65536).toNat)) from rfl, hw, hseg],
      ?_, by show w.written + 2 = (p : Int) + 2; rw [hw]⟩
    rw [beBytes, List.reverse_reverse, unLE_leBytes 2 _ hu]
    exact toSigned_emod_16 v hlo hhi
  · intro v hlo hhi hfit
    have hseg := storeBytes_bytes (leBytes 4 ((v % 4294967296).toNat)) w.data p
      (by rw [hele4]; exact hfit) (leBytes_lt 4 _)
    rw [hele4] at hseg
    have hu : (v % 4294967296).toNat < 256 ^ 4 := by
      have := hemod v 4294967296 (by norm_num)
      have := Int.emod_lt_of_pos v (show (0 : Int) < 4294967296 by norm_num)
      norm_num
      omega
    refine ⟨by rw [show (StaticWriter.writeI32 v w).data
        = storeBytes w.data w.written (leBytes 4 ((v % 4294967296).toNat)) from rfl,
        hw, hseg],
      by rw [unLE_leBytes 4 _ hu]; exact toSigned_emod_32 v hlo hhi,
      by show w.written + 4 = (p : Int) + 4; rw [hw]⟩
  · intro v hlo hhi hfit
    have hseg := storeBytes_bytes (beBytes 4 ((v % 4294967296).toNat)) w.data p
      (by rw [hbe4]; exact hfit) (hbelt 4 _)
    rw [hbe4] at hseg
    have hu : (v % 4294967296).toNat < 256 ^ 4 := by
      have := hemod v 4294967296 (by norm_num)
      have := Int.emod_lt_of_pos v (show (0 : Int) < 4294967296 by norm_num)
      norm_num
      omega
    refine ⟨by rw [show (StaticWriter.writeI32BE v w).data
        = storeBytes w.data w.written (beBytes 4 ((v % 4294967296).toNat)) from rfl,
        hw, hseg],
      ?_, by show w.written + 4 = (p : Int) + 4; rw [hw]⟩
    rw [beBytes, List.reverse_reverse, unLE_leBytes 4 _ hu]
    exact toSigned_emod_32 v hlo hhi

theorem varintBytes_lt (n : Nat) : ∀ b ∈ varintBytes n, b < 256 := by
  intro b hb
  unfold varintBytes at hb
  split_ifs at hb with h1 h2 h3
  · rw [List.mem_singleton] at hb
    omega
  · rw [List.mem_cons] at hb
    rcases hb with rfl | hb
    · norm_num
    · exact leBytes_lt 2 n b hb
  · rw [List.mem_cons] at hb
    rcases hb with rfl | hb
    · norm_num
    · exact leBytes_lt 4 n b hb
  · rw [List.mem_cons] at hb
    rcases hb with rfl | hb
    · norm_num
    · exact leBytes_lt 8 n b hb

theorem encWriteVarint_eq (data : List Nat) (num : Nat) (off : Int) :
    encWriteVarint data num off =
      (storeBytes data off (varintBytes num), off + ((varintBytes num).length : Int)) := by
  unfold encWriteVarint varintBytes
  split_ifs with h1 h2 h3 <;>
    simp [store1_as_storeBytes, List.length_cons, length_leBytes]

theorem writeVarint_seg (n : Nat) (w : StaticWriter) (p : Nat)
    (hw : w.written = (p : Int))
    (hfit : p + (varintBytes n).length ≤ w.data.length) :
    (StaticWriter.writeVarint n w).data =
      w.data.take p ++ varintBytes n ++ w.data.drop (p + (varintBytes n).length) ∧
    (StaticWriter.writeVarint n w).written =
      (p : Int) + ((varintBytes n).length : Int) := by
  unfold StaticWriter.writeVarint
  rw [encWriteVarint_eq]
  constructor
  · show storeBytes w.data w.written (varintBytes n) = _
    rw [hw]
    exact storeBytes_bytes (varintBytes n) w.data p hfit (varintBytes_lt n)
  · show w.written + _ = _
    rw [hw]

theorem data_length_writeVarint (n : Nat) (w : StaticWriter) :
    (StaticWriter.writeVarint n w).data.length = w.data.length := by
  show (encWriteVarint w.data n w.written).1.length = _
  rw [encWriteVarint_eq]
  exact length_storeBytes _ _ _

theorem readVarint_varintBytes (n : Nat) (tail : List Nat) (h : n < 2 ^ 64) :
    readVarint (varintBytes n ++ tail) = some (n, tail) := by
  unfold varintBytes
  split_ifs with h1 h2 h3
  · simp [readVarint, h1]
  · have hlen : (leBytes 2 n).length = 2 := length_leBytes 2 n
    have htake : (leBytes 2 n ++ tail).take 2 = leBytes 2 n := List.take_left' hlen
    have hdrop : (leBytes 2 n ++ tail).drop 2 = tail := List.drop_left' hlen
    simp only [List.cons_append, readVarint]
    norm_num [htake, hdrop, List.length_append, hlen]
    exact unLE_leBytes 2 n (by norm_num; omega)
  · have hlen : (leBytes 4 n).length = 4 := length_leBytes 4 n
    have htake : (leBytes 4 n ++ tail).take 4 = leBytes 4 n := List.take_left' hlen
    have hdrop : (leBytes 4 n ++ tail).drop 4 = tail := List.drop_left' hlen
    simp only [List.cons_append, readVarint]
    norm_num [htake, hdrop, List.length_append, hlen]
    exact unLE_leBytes 4 n (by norm_num; omega)
  · have hlen : (leBytes 8 n).length = 8 := length_leBytes 8 n
    have htake : (leBytes 8 n ++ tail).take 8 = leBytes 8 n := List.take_left' hlen
    have hdrop : (leBytes 8 n ++ tail).drop 8 = tail := List.drop_left' hlen
    simp only [List.cons_append, readVarint]
    norm_num [htake, hdrop, List.length_append, hlen]
    exact unLE_leBytes 8 n (by norm_num; omega)

/-- C1: writeVarint appends the compact encoding of the value and
advances the cursor by its length: a single byte below 0xfd, marker 0xfd
plus two little-endian bytes up to 0xffff, marker 0xfe plus four
little-endian bytes up to 0xffffffff, and marker 0xff plus eight
little-endian bytes beyond; the encoding decodes back to the value, and
the seven boundary values produce exactly the documented marker forms. -/
theorem writeVarint_correct :
    (∀ (n : Nat) (w : StaticWriter) (p : Nat), w.written = (p : Int) →
      p + (varintBytes n).length ≤ w.data.length →
      (StaticWriter.writeVarint n w).data =
        w.data.take p ++ varintBytes n ++ w.data.drop (p + (varintBytes n).length) ∧
      (StaticWriter.writeVarint n w).written =
        (p : Int) + ((varintBytes n).length : Int)) ∧
    (∀ (n : Nat) (tail : List Nat), n < 2 ^ 64 →
      readVarint (varintBytes n ++ tail) = some (n, tail)) ∧
    (varintBytes 0 = [0] ∧ varintBytes 0xfc = [0xfc] ∧
      varintBytes 0xfd = [0xfd, 0xfd, 0] ∧
      varintBytes 0xffff = [0xfd, 0xff, 0xff] ∧
      varintBytes 0x10000 = [0xfe, 0, 0, 1, 0] ∧
      varintBytes 0xffffffff = [0xfe, 0xff, 0xff, 0xff, 0xff] ∧
      varintBytes 0x100000000 = [0xff, 0, 0, 0, 0, 1, 0, 0, 0]) := by
  refine ⟨writeVarint_seg, readVarint_varintBytes, ?_⟩
  refine ⟨by decide, by decide, by decide, by decide, by decide, by decide, by decide⟩

/-- C1 witness: on a fresh three-byte writer, writeVarint of 0xfd stores
the marker form fd fd 00 and advances the cursor to three; the boundary
encoding decodes back to 0xfd. -/
theorem writeVarint_correct_witness :
    ((StaticWriter.writeVarint 253 ⟨[9, 9, 9], 0⟩).data =
        ([9, 9, 9] : List Nat).take 0 ++ varintBytes 253
          ++ ([9, 9, 9] : List Nat).drop (0 + (varintBytes 253).length) ∧
      (StaticWriter.writeVarint 253 ⟨[9, 9, 9], 0⟩).written =
        ((0 : Nat) : Int) + (((varintBytes 253).length : Nat) : Int)) ∧
    readVarint (varintBytes 253 ++ [7]) = some (253, [7]) :=
  ⟨writeVarint_correct.1 253 ⟨[9, 9, 9], 0⟩ 0 (by decide) (by decide),
   writeVarint_correct.2.1 253 [7] (by norm_num)⟩

theorem writeBytes_seg (bs : List Nat) (w : StaticWriter) (p : Nat)
    (hw : w.written = (p : Int)) (hb : ∀ b ∈ bs, b < 256)
    (hfit : p + bs.length ≤ w.data.length) :
    (StaticWriter.writeBytes bs w).data =
      w.data.take p ++ bs ++ w.data.drop (p + bs.length) ∧
    (StaticWriter.writeBytes bs w).written = (p : Int) + (bs.length : Int) := by
  unfold StaticWriter.writeBytes
  by_cases hnil : bs.length = 0
  · rw [if_pos hnil]
    have hbs : bs = [] := List.length_eq_zero.mp hnil
    subst hbs
    refine ⟨?_, by rw [hw]; norm_num⟩
    simp [List.take_append_drop]
  · rw [if_neg hnil]
    refine ⟨?_, by show w.written + (bs.length : Int) = _; rw [hw]⟩
    show storeBytes w.data w.written bs = _
    rw [hw]
    exact storeBytes_bytes bs w.data p hfit hb

theorem data_length_writeBytes (bs : List Nat) (w : StaticWriter) :
    (StaticWriter.writeBytes bs w).data.length = w.data.length := by
  unfold StaticWriter.writeBytes
  split
  · rfl
  · exact length_storeBytes _ _ _

/-- C7: writeBytes copies the bytes verbatim at the cursor and advances
the cursor by their count, doing nothing at all on an empty input; and
writeVarBytes produces exactly the compact varint encoding of the length
immediately followed by the bytes themselves. -/
theorem writeBytes_varBytes (w : StaticWriter) (p : Nat) (hw : w.written = (p : Int)) :
    (StaticWriter.writeBytes [] w = w) ∧
    (∀ bs : List Nat, (∀ b ∈ bs, b < 256) → p + bs.length ≤ w.data.length →
      (StaticWriter.writeBytes bs w).data =
        w.data.take p ++ bs ++ w.data.drop (p + bs.length) ∧
      (StaticWriter.writeBytes bs w).written = (p : Int) + (bs.length : Int)) ∧
    (∀ bs : List Nat, (∀ b ∈ bs, b < 256) →
      p + (varintBytes bs.length).length + bs.length ≤ w.data.length →
      (StaticWriter.writeVarBytes bs w).data =
        w.data.take p ++ varintBytes bs.length ++ bs
          ++ w.data.drop (p + (varintBytes bs.length).length + bs.length) ∧
      (StaticWriter.writeVarBytes bs w).written =
        (p : Int) + ((varintBytes bs.length).length : Int) + (bs.length : Int)) := by
  refine ⟨rfl, fun bs hb hfit => writeBytes_seg bs w p hw hb hfit, ?_⟩
  intro bs hb hfit
  have hfit1 : p + (varintBytes bs.length).length ≤ w.data.length := by omega
  obtain ⟨hd1, hw1⟩ := writeVarint_seg bs.length w p hw hfit1
  have hlen1 : (StaticWriter.writeVarint bs.length w).data.length = w.data.length :=
    data_length_writeVarint bs.length w
  have hw1n : (StaticWriter.writeVarint bs.length w).written =
      (((p + (varintBytes bs.length).length : Nat)) : Int) := by
    rw [hw1]
    push_cast
    ring
  have hfit2 : (p + (varintBytes bs.length).length) + bs.length ≤
      (StaticWriter.writeVarint bs.length w).data.length := by
    rw [hlen1]
    omega
  obtain ⟨hd2, hww2⟩ :=
    writeBytes_seg bs (StaticWriter.writeVarint bs.length w)
      (p + (varintBytes bs.length).length) hw1n hb hfit2
  have hAlen : (w.data.take p).length = p := by
    rw [List.length_take]
    omega
  have hAVlen : (w.data.take p ++ varintBytes bs.length).length
      = p + (varintBytes bs.length).length := by
    rw [List.length_append, hAlen]
  have htake : (StaticWriter.writeVarint bs.length w).data.take
      (p + (varintBytes bs.length).length) = w.data.take p ++ varintBytes bs.length := by
    rw [hd1]
    exact List.take_left' hAVlen
  have hdrop : (StaticWriter.writeVarint bs.length w).data.drop
        (p + (varintBytes bs.length).length + bs.length)
      = w.data.drop (p + (varintBytes bs.length).length + bs.length) := by
    rw [hd1]
    conv_lhs => rw [show p + (varintBytes bs.length).length + bs.length
      = (w.data.take p ++ varintBytes bs.length).length + bs.length by rw [hAVlen]]
    rw [List.drop_append, List.drop_drop]
  constructor
  · show (StaticWriter.writeBytes bs (StaticWriter.writeVarint bs.length w)).data = _
    rw [hd2, htake, hdrop]
  · show (StaticWriter.writeBytes bs (StaticWriter.writeVarint bs.length w)).written = _
    rw [hww2]
    push_cast
    ring

/-- C7 witness: on a fresh four-byte writer, writeVarBytes of the bytes
2, 3 stores the varint length 2 followed by 2, 3, advancing the cursor to
three, and writeBytes of the empty list is the identity. -/
theorem writeBytes_varBytes_witness :
    StaticWriter.writeBytes [] (⟨[0, 0, 0, 0], 0⟩ : StaticWriter) = ⟨[0, 0, 0, 0], 0⟩ ∧
    ((StaticWriter.writeVarBytes [2, 3] ⟨[0, 0, 0, 0], 0⟩).data =
        ([0, 0, 0, 0] : List Nat).take 0 ++ varintBytes 2 ++ [2, 3]
          ++ ([0, 0, 0, 0] : List Nat).drop (0 + (varintBytes 2).length + 2) ∧
      (StaticWriter.writeVarBytes [2, 3] ⟨[0, 0, 0, 0], 0⟩).written =
        ((0 : Nat) : Int) + (((varintBytes 2).length : Nat) : Int) + ((2 : Nat) : Int)) :=
  ⟨(writeBytes_varBytes ⟨[0, 0, 0, 0], 0⟩ 0 (by decide)).1,
   (writeBytes_varBytes ⟨[0, 0, 0, 0], 0⟩ 0 (by decide)).2.2 [2, 3]
     (by decide) (by decide)⟩

theorem jsSlice_natCast (data : List Nat) (p : Nat) :
    jsSlice data ((p : Nat) : Int) = data.take p := by
  unfold jsSlice
  rw [if_pos (by positivity : (0 : Int) ≤ ((p : Nat) : Int))]
  simp

/-- C4: writeChecksum computes the double-hash over exactly the bytes
written so far, appends the first four digest bytes at the cursor,
advances the cursor by exactly four, and leaves the bytes already
written unchanged. -/
theorem writeChecksum_spec (H : List Nat → List Nat) (w : StaticWriter) (p : Nat)
    (hw : w.written = (p : Int)) (hfit : p + 4 ≤ w.data.length)
    (hlen4 : 4 ≤ (hash256 H (w.data.take p)).length)
    (hbytes : ∀ b ∈ hash256 H (w.data.take p), b < 256) :
    (StaticWriter.writeChecksum H w).data =
      w.data.take p ++ (hash256 H (w.data.take p)).take 4 ++ w.data.drop (p + 4) ∧
    (StaticWriter.writeChecksum H w).data.take p = w.data.take p ∧
    (StaticWriter.writeChecksum H w).written = (p : Int) + 4 := by
  have hcklen : ((hash256 H (w.data.take p)).take 4).length = 4 := by
    rw [List.length_take]
    omega
  have hckb : ∀ b ∈ (hash256 H (w.data.take p)).take 4, b < 256 :=
    fun b hb => hbytes b (List.mem_of_mem_take hb)
  have hseg := storeBytes_bytes ((hash256 H (w.data.take p)).take 4) w.data p
    (by rw [hcklen]; exact hfit) hckb
  rw [hcklen] at hseg
  have hdata : (StaticWriter.writeChecksum H w).data =
      w.data.take p ++ (hash256 H (w.data.take p)).take 4 ++ w.data.drop (p + 4) := by
    show storeBytes w.data w.written ((hash256 H (jsSlice w.data w.written)).take 4) = _
    rw [hw, jsSlice_natCast, hseg]
  refine ⟨hdata, ?_, by show w.written + 4 = _; rw [hw]⟩
  rw [hdata]
  have h1 : p ≤ (w.data.take p ++ (hash256 H (w.data.take p)).take 4).length := by
    rw [List.length_append, List.length_take]
    omega
  have h2 : p ≤ (w.data.take p).length := by
    rw [List.length_take]
    omega
  rw [List.take_append_of_le_length h1, List.take_append_of_le_length h2,
    List.take_take]
  simp

/-- C4 witness: with a concrete stand-in hash, a writer holding four
bytes gains exactly the first four digest bytes of the double-hash of
those four bytes and its cursor moves from four to eight. -/
theorem writeChecksum_spec_witness :
    (StaticWriter.writeChecksum sampleHash ⟨[1, 2, 3, 4, 0, 0, 0, 0], 4⟩).data =
      ([1, 2, 3, 4, 0, 0, 0, 0] : List Nat).take 4
        ++ (hash256 sampleHash (([1, 2, 3, 4, 0, 0, 0, 0] : List Nat).take 4)).take 4
        ++ ([1, 2, 3, 4, 0, 0, 0, 0] : List Nat).drop (4 + 4) ∧
    (StaticWriter.writeChecksum sampleHash ⟨[1, 2, 3, 4, 0, 0, 0, 0], 4⟩).data.take 4 =
      ([1, 2, 3, 4, 0, 0, 0, 0] : List Nat).take 4 ∧
    (StaticWriter.writeChecksum sampleHash ⟨[1, 2, 3, 4, 0, 0, 0, 0], 4⟩).written =
      ((4 : Nat) : Int) + 4 :=
  writeChecksum_spec sampleHash ⟨[1, 2, 3, 4, 0, 0, 0, 0], 4⟩ 4
    (by decide) (by decide) (by decide) (by decide)

/-- C6 witness: on a fresh eight-byte writer, writeU16 of 0x1234 stores
0x34 then 0x12 and advances the cursor to two. -/
theorem fixed_width_writes_witness :
    (StaticWriter.writeU16 4660 ⟨List.replicate 8 9, 0⟩).data =
        (List.replicate 8 9).take 0 ++ leBytes 2 4660
          ++ (List.replicate 8 9).drop (0 + 2) ∧
      unLE (leBytes 2 4660) = 4660 ∧
      (StaticWriter.writeU16 4660 ⟨List.replicate 8 9, 0⟩).written = ((0 : Nat) : Int) + 2 :=
  (fixed_width_writes ⟨List.replicate 8 9, 0⟩ 0 (by decide)).2.1 4660
    (by norm_num) (by decide)

theorem consFrame_prependFrames (pkt : RawPacket) (ps : List RawPacket)
    (x : Except ParseError (List RawPacket × List Nat)) :
    consFrame pkt (prependFrames ps x) = prependFrames (pkt :: ps) x := by
  rcases x with e | ⟨qs, r⟩ <;> simp [consFrame, prependFrames]

theorem prependFrames_nil (x : Except ParseError (List RawPacket × List Nat)) :
    prependFrames [] x = x := by
  rcases x with e | ⟨qs, r⟩ <;> simp [prependFrames]

theorem parseFrames_eq (magic maxSize : Nat) (H : List Nat → List Nat) (buf : List Nat) :
    parseFrames magic maxSize H buf =
      if buf.length < 24 then .ok ([], buf)
      else if (parseHeader buf).magic ≠ magic then .error .badMagic
      else if maxSize < (parseHeader buf).len then .error .oversize
      else if buf.length < 24 + (parseHeader buf).len then .ok ([], buf)
      else if (parseHeader buf).ck
          ≠ (hash256 H ((buf.drop 24).take (parseHeader buf).len)).take 4 then
        .error .badChecksum
      else
        consFrame
          ⟨cmdOfBytes (parseHeader buf).cmd12,
            (buf.drop 24).take (parseHeader buf).len⟩
          (parseFrames magic maxSize H (buf.drop (24 + (parseHeader buf).len))) := by
  rw [parseFrames]
  simp only [dite_eq_ite]

theorem parseFrames_short (magic maxSize : Nat) (H : List Nat → List Nat)
    (buf : List Nat) (h : buf.length < 24) :
    parseFrames magic maxSize H buf = .ok ([], buf) := by
  rw [parseFrames_eq, if_pos h]

theorem parseHeader_append (buf more : List Nat) (h : 24 ≤ buf.length) :
    parseHeader (buf ++ more) = parseHeader buf := by
  unfold parseHeader
  rw [List.take_append_of_le_length (by omega),
    List.drop_append_of_le_length (by omega : 4 ≤ buf.length),
    List.take_append_of_le_length (by rw [List.length_drop]; omega),
    List.drop_append_of_le_length (by omega : 16 ≤ buf.length),
    List.take_append_of_le_length (by rw [List.length_drop]; omega),
    List.drop_append_of_le_length (by omega : 20 ≤ buf.length),
    List.take_append_of_le_length (by rw [List.length_drop]; omega)]

theorem payload_append (buf more : List Nat) (len : Nat) (h : 24 + len ≤ buf.length) :
    ((buf ++ more).drop 24).take len = (buf.drop 24).take len := by
  rw [List.drop_append_of_le_length (by omega),
    List.take_append_of_le_length (by rw [List.length_drop]; omega)]

theorem dropFrame_append (buf more : List Nat) (len : Nat) (h : 24 + len ≤ buf.length) :
    (buf ++ more).drop (24 + len) = buf.drop (24 + len) ++ more :=
  List.drop_append_of_le_length (by omega)

theorem except_match_id (x : Except ParseError (List RawPacket × List Nat)) :
    (match x with
      | .error e => Except.error e
      | .ok (qs, r) => Except.ok (([] : List RawPacket) ++ qs, r)) = x := by
  rcases x with e | ⟨qs, r⟩ <;> rfl

theorem parseFrames_append (magic maxSize : Nat) (H : List Nat → List Nat) :
    ∀ (n : Nat) (buf : List Nat), buf.length ≤ n → ∀ more : List Nat,
    parseFrames magic maxSize H (buf ++ more) =
      match parseFrames magic maxSize H buf with
      | .error e => .error e
      | .ok (ps, rest) => prependFrames ps (parseFrames magic maxSize H (rest ++ more)) := by
  intro n
  induction n with
  | zero =>
      intro buf hb more
      have hnil : buf = [] := List.eq_nil_of_length_eq_zero (by omega)
      subst hnil
      rw [parseFrames_short magic maxSize H [] (by simp)]
      exact (prependFrames_nil _).symm
  | succ n ih =>
      intro buf hb more
      by_cases h24 : buf.length < 24
      · rw [parseFrames_short magic maxSize H buf h24]
        exact (prependFrames_nil _).symm
      · have hph : parseHeader (buf ++ more) = parseHeader buf :=
          parseHeader_append buf more (by omega)
        have h24m : ¬ (buf ++ more).length < 24 := by
          rw [List.length_append]
          omega
        by_cases hm : (parseHeader buf).magic ≠ magic
        · rw [parseFrames_eq magic maxSize H (buf ++ more), if_neg h24m, hph,
            if_pos hm, parseFrames_eq magic maxSize H buf, if_neg h24, if_pos hm]
        · by_cases hs : maxSize < (parseHeader buf).len
          · rw [parseFrames_eq magic maxSize H (buf ++ more), if_neg h24m, hph,
              if_neg hm, if_pos hs, parseFrames_eq magic maxSize H buf,
              if_neg h24, if_neg hm, if_pos hs]
          · by_cases hava : buf.length < 24 + (parseHeader buf).len
            · have hbuf : parseFrames magic maxSize H buf = .ok ([], buf) := by
                rw [parseFrames_eq magic maxSize H buf, if_neg h24, if_neg hm,
                  if_neg hs, if_pos hava]
              rw [hbuf]
              exact (prependFrames_nil _).symm
            · have hpay : ((buf ++ more).drop 24).take (parseHeader buf).len
                  = (buf.drop 24).take (parseHeader buf).len :=
                payload_append buf more _ (by omega)
              have havam : ¬ (buf ++ more).length < 24 + (parseHeader buf).len := by
                rw [List.length_append]
                omega
              by_cases hck : (parseHeader buf).ck
                  ≠ (hash256 H ((buf.drop 24).take (parseHeader buf).len)).take 4
              · rw [parseFrames_eq magic maxSize H (buf ++ more), if_neg h24m, hph,
                  if_neg hm, if_neg hs, if_neg havam, hpay, if_pos hck,
                  parseFrames_eq magic maxSize H buf, if_neg h24, if_neg hm,
                  if_neg hs, if_neg hava, if_pos hck]
              · have hdropm : (buf ++ more).drop (24 + (parseHeader buf).len)
                    = buf.drop (24 + (parseHeader buf).len) ++ more :=
                  dropFrame_append buf more _ (by omega)
                have hrec : (buf.drop (24 + (parseHeader buf).len)).length ≤ n := by
                  rw [List.length_drop]
                  omega
                have hih := ih (buf.drop (24 + (parseHeader buf).len)) hrec more
                rw [parseFrames_eq magic maxSize H (buf ++ more), if_neg h24m, hph,
                  if_neg hm, if_neg hs, if_neg havam, hpay, if_neg hck, hdropm, hih,
                  parseFrames_eq magic maxSize H buf, if_neg h24, if_neg hm,
                  if_neg hs, if_neg hava, if_neg hck]
                rcases hsub : parseFrames magic maxSize H
                    (buf.drop (24 + (parseHeader buf).len)) with e | ⟨ps, rest⟩
                · simp [consFrame]
                · rw [consFrame_prependFrames]
                  simp [consFrame]

theorem parseFrames_stuck (magic maxSize : Nat) (H : List Nat → List Nat) :
    ∀ (n : Nat) (buf : List Nat), buf.length ≤ n →
    ∀ ps rest, parseFrames magic maxSize H buf = .ok (ps, rest) →
    parseFrames magic maxSize H rest = .ok ([], rest) := by
  intro n
  induction n with
  | zero =>
      intro buf hb ps rest hok
      have hnil : buf = [] := List.eq_nil_of_length_eq_zero (by omega)
      subst hnil
      rw [parseFrames_short magic maxSize H [] (by simp)] at hok
      obtain ⟨h1, h2⟩ : ps = [] ∧ rest = [] := by
        simpa using hok
      subst h2
      exact parseFrames_short magic maxSize H [] (by simp)
  | succ n ih =>
      intro buf hb ps rest hok
      by_cases h24 : buf.length < 24
      · rw [parseFrames_short magic maxSize H buf h24] at hok
        obtain ⟨h1, h2⟩ : ps = [] ∧ buf = rest := by
          simpa using hok
        subst h2
        exact parseFrames_short magic maxSize H buf h24
      · rw [parseFrames_eq magic maxSize H buf, if_neg h24] at hok
        by_cases hm : (parseHeader buf).magic ≠ magic
        · rw [if_pos hm] at hok
          exact absurd hok (by simp)
        · rw [if_neg hm] at hok
          by_cases hs : maxSize < (parseHeader buf).len
          · rw [if_pos hs] at hok
            exact absurd hok (by simp)
          · rw [if_neg hs] at hok
            by_cases hava : buf.length < 24 + (parseHeader buf).len
            · rw [if_pos hava] at hok
              obtain ⟨h1, h2⟩ : ps = [] ∧ buf = rest := by
                simpa using hok
              subst h2
              rw [parseFrames_eq magic maxSize H buf, if_neg h24, if_neg hm,
                if_neg hs, if_pos hava]
            · rw [if_neg hava] at hok
              by_cases hck : (parseHeader buf).ck
                  ≠ (hash256 H ((buf.drop 24).take (parseHeader buf).len)).take 4
              · rw [if_pos hck] at hok
                exact absurd hok (by simp)
              · rw [if_neg hck] at hok
                rcases hsub : parseFrames magic maxSize H
                    (buf.drop (24 + (parseHeader buf).len)) with e | ⟨ps2, rest2⟩
                · rw [hsub] at hok
                  exact absurd hok (by simp [consFrame])
                · rw [hsub] at hok
                  simp only [consFrame] at hok
                  obtain ⟨hps, hrest⟩ :
                      (⟨cmdOfBytes (parseHeader buf).cmd12,
                        (buf.drop 24).take (parseHeader buf).len⟩ : RawPacket)
                          :: ps2 = ps ∧ rest2 = rest := by
                    simpa using hok
                  subst hrest
                  exact ih (buf.drop (24 + (parseHeader buf).len))
                    (by rw [List.length_drop]; omega) ps2 rest2 hsub

theorem parseFrames_append_ok (magic maxSize : Nat) (H : List Nat → List Nat)
    (buf more : List Nat) (ps : List RawPacket) (rest : List Nat)
    (h : parseFrames magic maxSize H buf = .ok (ps, rest)) :
    parseFrames magic maxSize H (buf ++ more) =
      prependFrames ps (parseFrames magic maxSize H (rest ++ more)) := by
  have happ := parseFrames_append magic maxSize H buf.length buf (le_refl _) more
  rw [h] at happ
  simpa using happ

theorem parseFrames_append_error (magic maxSize : Nat) (H : List Nat → List Nat)
    (buf more : List Nat) (e : ParseError)
    (h : parseFrames magic maxSize H buf = .error e) :
    parseFrames magic maxSize H (buf ++ more) = .error e := by
  have happ := parseFrames_append magic maxSize H buf.length buf (le_refl _) more
  rw [h] at happ
  simpa using happ

theorem feedAll_flatten (H : List Nat → List Nat) :
    ∀ (chunks : List (List Nat)) (p : Parser),
    parseFrames p.magic p.maxSize H p.pending = .ok ([], p.pending) →
    Parser.feedAll H p chunks =
      feedResult p (parseFrames p.magic p.maxSize H (p.pending ++ chunks.flatten)) := by
  intro chunks
  induction chunks with
  | nil =>
      intro p hstuck
      show Except.ok ([], p) = _
      rw [List.flatten_nil, List.append_nil, hstuck]
      rfl
  | cons c cs ih =>
      intro p hstuck
      have hflat : (c :: cs).flatten = c ++ cs.flatten := List.flatten_cons
      have hassoc : p.pending ++ (c ++ cs.flatten) = (p.pending ++ c) ++ cs.flatten :=
        (List.append_assoc _ _ _).symm
      rcases hfc : parseFrames p.magic p.maxSize H (p.pending ++ c) with e | ⟨ps, rest⟩
      · have hfeed : Parser.feed H p c = .error e := by
          unfold Parser.feed
          rw [hfc]
          rfl
        simp only [Parser.feedAll, hfeed]
        rw [hflat, hassoc,
          parseFrames_append_error p.magic p.maxSize H _ _ e hfc]
        rfl
      · have hfeed : Parser.feed H p c = .ok (ps, { p with pending := rest }) := by
          unfold Parser.feed
          rw [hfc]
          rfl
        have hstuck2 : parseFrames p.magic p.maxSize H rest = .ok ([], rest) :=
          parseFrames_stuck p.magic p.maxSize H (p.pending ++ c).length
            (p.pending ++ c) (le_refl _) ps rest hfc
        have hih := ih { p with pending := rest } hstuck2
        simp only [Parser.feedAll, hfeed, hih]
        rw [hflat, hassoc,
          parseFrames_append_ok p.magic p.maxSize H _ _ ps rest hfc]
        rcases hx : parseFrames p.magic p.maxSize H (rest ++ cs.flatten) with
          e2 | ⟨qs, r⟩ <;> rfl

theorem cmdOfBytes_pad (cmd : List Nat) (k : Nat) (h : ∀ b ∈ cmd, b ≠ 0) :
    cmdOfBytes (cmd ++ List.replicate k 0) = cmd := by
  unfold cmdOfBytes
  rw [List.takeWhile_append]
  have hself : cmd.takeWhile (fun b => b != 0) = cmd :=
    List.takeWhile_eq_self_iff.mpr (fun x hx => by simpa using h x hx)
  rw [hself, if_pos rfl, List.takeWhile_replicate]
  simp

theorem parseFrames_singleFrame (magic maxSize : Nat) (H : List Nat → List Nat)
    (cmd payload Fb : List Nat)
    (hm : magic < 2 ^ 32) (hms : maxSize < 2 ^ 32)
    (hcmd12 : cmd.length ≤ 12) (hcmdnz : ∀ b ∈ cmd, b ≠ 0)
    (hpl : payload.length ≤ maxSize)
    (hck4 : 4 ≤ (hash256 H payload).length)
    (hF : frame magic H cmd payload = some Fb) :
    parseFrames magic maxSize H Fb = .ok ([⟨cmd, payload⟩], []) := by
  have hFb : Fb = leBytes 4 magic ++ ((cmd ++ List.replicate (12 - cmd.length) 0)
      ++ (leBytes 4 payload.length ++ ((hash256 H payload).take 4 ++ payload))) := by
    unfold frame at hF
    rw [if_pos hcmd12] at hF
    have := Option.some.inj hF
    rw [← this]
    simp [List.append_assoc]
  have hA : (leBytes 4 magic).length = 4 := length_leBytes 4 magic
  have hP : (cmd ++ List.replicate (12 - cmd.length) 0).length = 12 := by
    rw [List.length_append, List.length_replicate]
    omega
  have hL : (leBytes 4 payload.length).length = 4 := length_leBytes 4 payload.length
  have hCK : ((hash256 H payload).take 4).length = 4 := by
    rw [List.length_take]
    omega
  have hFb2 : Fb = (leBytes 4 magic ++ (cmd ++ List.replicate (12 - cmd.length) 0))
      ++ (leBytes 4 payload.length ++ ((hash256 H payload).take 4 ++ payload)) := by
    rw [hFb]
    simp [List.append_assoc]
  have hFb3 : Fb = ((leBytes 4 magic ++ (cmd ++ List.replicate (12 - cmd.length) 0))
      ++ leBytes 4 payload.length) ++ ((hash256 H payload).take 4 ++ payload) := by
    rw [hFb]
    simp [List.append_assoc]
  have hFb4 : Fb = (((leBytes 4 magic ++ (cmd ++ List.replicate (12 - cmd.length) 0))
      ++ leBytes 4 payload.length) ++ (hash256 H payload).take 4) ++ payload := by
    rw [hFb]
    simp [List.append_assoc]
  have hAP : (leBytes 4 magic ++ (cmd ++ List.replicate (12 - cmd.length) 0)).length
      = 16 := by
    rw [List.length_append, hA, hP]
  have hAPL : ((leBytes 4 magic ++ (cmd ++ List.replicate (12 - cmd.length) 0))
      ++ leBytes 4 payload.length).length = 20 := by
    rw [List.length_append, hAP, hL]
  have hAPLC : (((leBytes 4 magic ++ (cmd ++ List.replicate (12 - cmd.length) 0))
      ++ leBytes 4 payload.length) ++ (hash256 H payload).take 4).length = 24 := by
    rw [List.length_append, hAPL, hCK]
  have hFlen : Fb.length = 24 + payload.length := by
    rw [hFb4, List.length_append, hAPLC]
  have hdrm : (parseHeader Fb).magic = magic := by
    show unLE (Fb.take 4) = magic
    rw [hFb, List.take_left' hA]
    exact unLE_leBytes 4 magic (by norm_num at hm ⊢; omega)
  have hdrc : (parseHeader Fb).cmd12 = cmd ++ List.replicate (12 - cmd.length) 0 := by
    show (Fb.drop 4).take 12 = _
    rw [hFb, List.drop_left' hA, List.take_append_of_le_length (by omega),
      List.take_of_length_le (by omega)]
  have hdrl : (parseHeader Fb).len = payload.length := by
    show unLE ((Fb.drop 16).take 4) = _
    rw [hFb2, List.drop_left' hAP, List.take_append_of_le_length (by omega),
      List.take_of_length_le (by omega)]
    exact unLE_leBytes 4 payload.length (by norm_num at hms ⊢; omega)
  have hdrck : (parseHeader Fb).ck = (hash256 H payload).take 4 := by
    show (Fb.drop 20).take 4 = _
    rw [hFb3, List.drop_left' hAPL, List.take_append_of_le_length (by omega),
      List.take_of_length_le (by omega)]
  have hpay : (Fb.drop 24).take payload.length = payload := by
    rw [hFb4, List.drop_left' hAPLC, List.take_length]
  have hdropnil : Fb.drop (24 + payload.length) = [] :=
    List.drop_eq_nil_of_le (by omega)
  rw [parseFrames_eq, if_neg (by omega), hdrm, if_neg (by omega), hdrl,
    if_neg (by omega), if_neg (by omega), hpay, hdrck,
    if_neg (by simp), hdropnil, parseFrames_short magic maxSize H [] (by simp),
    hdrc, cmdOfBytes_pad cmd _ hcmdnz]
  rfl

set_option maxRecDepth 100000 in
/-- C5 (amended): for every command fitting the 12-byte field (nonzero
bytes) and every payload no longer than the parser configured maximum
message size, feeding the exact framed bytes into a fresh parser with the
same magic, in one chunk or split arbitrarily, yields exactly one emitted
packet carrying that command and payload; and the concrete version packet
scenario (version 300, services 1, height 0, noRelay false) round-trips
with all fields equal to the originals. -/
theorem framer_parser_roundtrip :
    (∀ (magic maxSize : Nat) (H : List Nat → List Nat)
        (cmd payload Fb : List Nat) (chunks : List (List Nat)),
      magic < 2 ^ 32 → maxSize < 2 ^ 32 →
      cmd.length ≤ 12 → (∀ b ∈ cmd, b ≠ 0) →
      payload.length ≤ maxSize → 4 ≤ (hash256 H payload).length →
      frame magic H cmd payload = some Fb →
      chunks.flatten = Fb →
      Parser.feedAll H ⟨magic, maxSize, []⟩ chunks =
        .ok ([⟨cmd, payload⟩], ⟨magic, maxSize, []⟩)) ∧
    (frame main.magic sampleHash versionCmd (encodeVersion sampleVersion)
        = some sampleFrame ∧
      Parser.feedAll sampleHash ⟨main.magic, 4000000, []⟩ [sampleFrame] =
        .ok ([⟨versionCmd, encodeVersion sampleVersion⟩], ⟨main.magic, 4000000, []⟩) ∧
      decodeVersion (encodeVersion sampleVersion) = some sampleVersion ∧
      sampleVersion.version = 300 ∧ sampleVersion.services = 1 ∧
      sampleVersion.height = 0 ∧ sampleVersion.noRelay = false) := by
  have hgen : ∀ (magic maxSize : Nat) (H : List Nat → List Nat)
      (cmd payload Fb : List Nat) (chunks : List (List Nat)),
      magic < 2 ^ 32 → maxSize < 2 ^ 32 →
      cmd.length ≤ 12 → (∀ b ∈ cmd, b ≠ 0) →
      payload.length ≤ maxSize → 4 ≤ (hash256 H payload).length →
      frame magic H cmd payload = some Fb →
      chunks.flatten = Fb →
      Parser.feedAll H ⟨magic, maxSize, []⟩ chunks =
        .ok ([⟨cmd, payload⟩], ⟨magic, maxSize, []⟩) := by
    intro magic maxSize H cmd payload Fb chunks hm hms hc hnz hpl hck hF hchunks
    have hsingle := parseFrames_singleFrame magic maxSize H cmd payload Fb
      hm hms hc hnz hpl hck hF
    have hstuck : parseFrames magic maxSize H ([] : List Nat) = .ok ([], []) :=
      parseFrames_short magic maxSize H [] (by norm_num)
    have hall := feedAll_flatten H chunks ⟨magic, maxSize, []⟩ hstuck
    rw [hall]
    show feedResult _ (parseFrames magic maxSize H chunks.flatten) = _
    rw [hchunks, hsingle]
    rfl
  refine ⟨hgen, rfl, ?_, by decide, rfl, rfl, rfl, rfl⟩
  exact hgen main.magic 4000000 sampleHash versionCmd
    (encodeVersion sampleVersion) sampleFrame [sampleFrame]
    (by decide) (by norm_num) (by decide) (by decide) (by decide) (by decide)
    rfl (by simp)

set_option maxRecDepth 100000 in
/-- C5 witness: a one-byte command with a three-byte payload framed on a
toy network, fed in two split chunks, is emitted as exactly one packet
and leaves the parser with an empty buffer. -/
theorem framer_parser_roundtrip_witness :
    Parser.feedAll sampleHash ⟨7, 9, []⟩ [witFrame.take 10, witFrame.drop 10] =
      .ok ([⟨[97], [1, 2, 3]⟩], ⟨7, 9, []⟩) :=
  framer_parser_roundtrip.1 7 9 sampleHash [97] [1, 2, 3] witFrame
    [witFrame.take 10, witFrame.drop 10] (by norm_num) (by norm_num) (by decide)
    (by decide) (by decide) (by decide) rfl (by simp [List.take_append_drop])

set_option maxRecDepth 100000 in
/-- C5 counterexample: the claim quantifies over every payload, but a
frame whose 3-byte payload exceeds a configured maximum message size of 2
is rejected by the parser with the oversize connection error, and no
packet is emitted. -/
theorem framer_parser_oversize :
    frame 1 sampleHash [97] [5, 5, 5] = some cexFrame ∧
    Parser.feedAll sampleHash ⟨1, 2, []⟩ [cexFrame] = .error .oversize ∧
    Parser.feedAll sampleHash ⟨1, 2, []⟩ [cexFrame] ≠
      .ok ([⟨[97], [5, 5, 5]⟩], ⟨1, 2, []⟩) := by
  have hov : parseFrames 1 2 sampleHash cexFrame = .error .oversize := by
    rw [parseFrames_eq, if_neg (by decide), if_neg (by decide), if_pos (by decide)]
  have hfeed : Parser.feed sampleHash ⟨1, 2, []⟩ cexFrame = .error .oversize := by
    unfold Parser.feed
    show feedResult _ (parseFrames 1 2 sampleHash cexFrame) = _
    rw [hov]
    rfl
  have hall : Parser.feedAll sampleHash ⟨1, 2, []⟩ [cexFrame] = .error .oversize := by
    simp only [Parser.feedAll, hfeed]
  refine ⟨rfl, hall, ?_⟩
  rw [hall]
  intro hcontra
  exact absurd hcontra (by simp)

set_option maxRecDepth 10000 in
/-- C2 counterexample: writing the hex string ab00...00 stores byte 0xab
first, in hex digit-pair order, not in the reversed byte order the claim
states: the written bytes differ from the reversal of the digit-pair
decoding. -/
theorem writeHash_no_reversal :
    StaticWriter.writeHash (.str (10 :: 11 :: List.replicate 62 0))
        ⟨List.replicate 32 0, 0⟩ =
      some ⟨171 :: List.replicate 31 0, 32⟩ ∧
    (171 :: List.replicate 31 0 : List Nat) ≠
      (hexPairs (10 :: 11 :: List.replicate 62 0)).reverse := by
  decide

end Bitloyal
